import Mathlib

/-!
Shallow embedding of the Synacor-challenge virtual machine from
`src/src/lib.rs` (the `Machine` struct and its methods), together with
theorems checking the specification's claims about it.

Machine integers (`u16`, `u8`, `usize`) are modelled as `Nat` with explicit
`% 2^16` (resp. `% 2^64`) wherever the Rust code can wrap, and panicking
operations (out-of-bounds indexing, `expect`, `panic!`, `%` by zero,
arithmetic overflow in index computations) are modelled as `Except Fault`
errors.  The Rust `Vec` stack pushes and pops at the end; it is embedded as
a `List` with the top of the stack at the head.
-/

namespace Synacor

/-- The fatal (panicking) conditions of the interpreter. -/
inductive Fault where
  /-- `panic!("Invalid argument")` in `Machine::value`. -/
  | invalidArg
  /-- `.expect("Stack underflow")` in the `Op::Pop` arm of `Machine::tick`. -/
  | stackUnderflow
  /-- `.expect("EOF")` in the `Op::In` arm of `Machine::tick`. -/
  | eof
  /-- An out-of-bounds slice index (or the wrapped index it produces). -/
  | oob
  /-- `%` with a zero divisor in the `Op::Mod` arm of `Machine::tick`. -/
  | divZero
deriving DecidableEq, Repr

/-- The decoded instruction type, mirroring `enum Op` of the source
(arguments are raw `u16` operand words, not yet resolved). -/
inductive Op where
  | Halt
  | Set (a b : Nat)
  | Push (a : Nat)
  | Pop (a : Nat)
  | Eq (a b c : Nat)
  | Gt (a b c : Nat)
  | Jmp (a : Nat)
  | Jt (a b : Nat)
  | Jf (a b : Nat)
  | Add (a b c : Nat)
  | Mult (a b c : Nat)
  | Mod (a b c : Nat)
  | And (a b c : Nat)
  | Or (a b c : Nat)
  | Not (a b : Nat)
  | Rmem (a b : Nat)
  | Wmem (a b : Nat)
  | Call (a : Nat)
  | Ret
  | Out (a : Nat)
  | In (a : Nat)
  | Noop
  | Invalid (w : Nat)
deriving DecidableEq, Repr

/-- The machine state, mirroring `struct Machine`.  All words are `Nat`
(`u16` values stay below 2^16 in every reachable state; this is proved,
not assumed).  The top of the execution stack is the head of `stack`. -/
structure Machine where
  memory : List Nat
  registers : List Nat
  stack : List Nat
  ip : Nat
deriving DecidableEq, Repr

/-- `Machine::new`: zeroed memory of 32768 words, 8 zeroed registers,
empty stack, `ip = 0`. -/
def Machine.new : Machine :=
  { memory := List.replicate 32768 0
    registers := List.replicate 8 0
    stack := []
    ip := 0 }

/-- The loop body of `Machine::load`: while `i < bound`, write
`buf[i] | (buf[i+1] << 8)` to `memory[i / 2]` and advance `i` by 2.
Indexing `buf` or `memory` out of bounds is a fault, as in Rust. -/
def loadLoop (buf : List Nat) (mem : List Nat) (bound i : Nat) :
    Except Fault (List Nat) :=
  if _h : i < bound then
    match buf[i]?, buf[i + 1]? with
    | some b0, some b1 =>
      if i / 2 < mem.length then
        loadLoop buf (mem.set (i / 2) (b0 ||| (b1 <<< 8))) bound (i + 2)
      else
        .error .oob
    | _, _ => .error .oob
  else
    .ok mem
termination_by bound - i
decreasing_by omega

/-- `Machine::load`, with the file contents already read into the byte
buffer `buf` (file I/O is out of scope; `read_to_end` yields the full file,
so the returned byte count is `buf.length`).  The loop bound
`buf.len() - 1` is `usize` subtraction, which wraps modulo 2^64 — for an
empty buffer the bound becomes 2^64 − 1 and the first iteration indexes
past the end of `buf`. -/
def Machine.load (m : Machine) (buf : List Nat) :
    Except Fault (Machine × Nat) :=
  Except.map (fun mem => ({ m with memory := mem }, buf.length))
    (loadLoop buf m.memory ((buf.length + 18446744073709551615) % 18446744073709551616) 0)

/-- `Machine::next`: read `memory[ip]` and increment `ip` (a `u16`, so the
increment wraps modulo 2^16; the read panics when `ip` is outside
memory). -/
def Machine.next (m : Machine) : Except Fault (Nat × Machine) :=
  match m.memory[m.ip]? with
  | some ret => .ok (ret, { m with ip := (m.ip + 1) % 65536 })
  | none => .error .oob

/-- Two consecutive `next` calls (argument fetches in decode order). -/
def Machine.next2 (m : Machine) : Except Fault (Nat × Nat × Machine) :=
  match m.next with
  | .error e => .error e
  | .ok (a, m1) =>
    match m1.next with
    | .error e => .error e
    | .ok (b, m2) => .ok (a, b, m2)

/-- Three consecutive `next` calls (argument fetches in decode order). -/
def Machine.next3 (m : Machine) : Except Fault (Nat × Nat × Nat × Machine) :=
  match m.next2 with
  | .error e => .error e
  | .ok (a, b, m2) =>
    match m2.next with
    | .error e => .error e
    | .ok (c, m3) => .ok (a, b, c, m3)

/-- `Machine::get_register`: index `registers[(reg - 32768) as usize]`.
The `u16` subtraction wraps modulo 2^16 (`(reg + 32768) % 65536` equals
`(reg - 32768) mod 2^16` for `reg < 2^16`); an index outside the register
file is a fault. -/
def Machine.get_register (m : Machine) (reg : Nat) : Except Fault Nat :=
  match m.registers[(reg + 32768) % 65536]? with
  | some v => .ok v
  | none => .error .oob

/-- `Machine::set_register`: write `registers[(reg - 32768) as usize]`,
with the same wrapped index as `get_register`. -/
def Machine.set_register (m : Machine) (reg val : Nat) :
    Except Fault Machine :=
  if (reg + 32768) % 65536 < m.registers.length then
    .ok { m with registers := m.registers.set ((reg + 32768) % 65536) val }
  else
    .error .oob

/-- `Machine::value`: resolve a raw operand — a literal below 32768, a
register read for 32768–32775, and `panic!("Invalid argument")` above. -/
def Machine.value (m : Machine) (arg : Nat) : Except Fault Nat :=
  if arg ≤ 32767 then
    .ok arg
  else if arg ≤ 32775 then
    m.get_register arg
  else
    .error .invalidArg

/-- The body of `Machine::decode` after the opcode word `w` has been
fetched: fetch the argument words the opcode requires, in order. -/
def decodeOp (m : Machine) (w : Nat) : Except Fault (Op × Machine) :=
  match w with
  | 0 => .ok (.Halt, m)
  | 1 =>
    match m.next2 with
    | .error e => .error e
    | .ok (a, b, m2) => .ok (.Set a b, m2)
  | 2 =>
    match m.next with
    | .error e => .error e
    | .ok (a, m1) => .ok (.Push a, m1)
  | 3 =>
    match m.next with
    | .error e => .error e
    | .ok (a, m1) => .ok (.Pop a, m1)
  | 4 =>
    match m.next3 with
    | .error e => .error e
    | .ok (a, b, c, m3) => .ok (.Eq a b c, m3)
  | 5 =>
    match m.next3 with
    | .error e => .error e
    | .ok (a, b, c, m3) => .ok (.Gt a b c, m3)
  | 6 =>
    match m.next with
    | .error e => .error e
    | .ok (a, m1) => .ok (.Jmp a, m1)
  | 7 =>
    match m.next2 with
    | .error e => .error e
    | .ok (a, b, m2) => .ok (.Jt a b, m2)
  | 8 =>
    match m.next2 with
    | .error e => .error e
    | .ok (a, b, m2) => .ok (.Jf a b, m2)
  | 9 =>
    match m.next3 with
    | .error e => .error e
    | .ok (a, b, c, m3) => .ok (.Add a b c, m3)
  | 10 =>
    match m.next3 with
    | .error e => .error e
    | .ok (a, b, c, m3) => .ok (.Mult a b c, m3)
  | 11 =>
    match m.next3 with
    | .error e => .error e
    | .ok (a, b, c, m3) => .ok (.Mod a b c, m3)
  | 12 =>
    match m.next3 with
    | .error e => .error e
    | .ok (a, b, c, m3) => .ok (.And a b c, m3)
  | 13 =>
    match m.next3 with
    | .error e => .error e
    | .ok (a, b, c, m3) => .ok (.Or a b c, m3)
  | 14 =>
    match m.next2 with
    | .error e => .error e
    | .ok (a, b, m2) => .ok (.Not a b, m2)
  | 15 =>
    match m.next2 with
    | .error e => .error e
    | .ok (a, b, m2) => .ok (.Rmem a b, m2)
  | 16 =>
    match m.next2 with
    | .error e => .error e
    | .ok (a, b, m2) => .ok (.Wmem a b, m2)
  | 17 =>
    match m.next with
    | .error e => .error e
    | .ok (a, m1) => .ok (.Call a, m1)
  | 18 => .ok (.Ret, m)
  | 19 =>
    match m.next with
    | .error e => .error e
    | .ok (a, m1) => .ok (.Out a, m1)
  | 20 =>
    match m.next with
    | .error e => .error e
    | .ok (a, m1) => .ok (.In a, m1)
  | 21 => .ok (.Noop, m)
  | inv => .ok (.Invalid inv, m)

/-- `Machine::decode`: fetch the opcode word, then its arguments. -/
def Machine.decode (m : Machine) : Except Fault (Op × Machine) :=
  match m.next with
  | .error e => .error e
  | .ok (w, m1) => decodeOp m1 w

/-- `Machine::add`: `((a as u32) + (b as u32)) % 32768`, truncated back to
`u16` (the sum of two `u16` values fits in `u32`, and the remainder fits in
`u16`, so plain `Nat` arithmetic is exact). -/
def Machine.add (_m : Machine) (a b : Nat) : Nat :=
  (a + b) % 32768

/-- `Machine::mult`: `((a as u32) * (b as u32)) % 32768`, truncated back to
`u16` (the product of two `u16` values fits in `u32`). -/
def Machine.mult (_m : Machine) (a b : Nat) : Nat :=
  (a * b) % 32768

/-- The `Op::Not` computation: `(!v) & 32767` on a `u16`, i.e. complement
against 2^16 − 1, then mask to 15 bits. -/
def notOp (v : Nat) : Nat :=
  (65535 ^^^ v) &&& 32767

/-- The outcome of one successful `Machine::tick`: the `bool` it returns,
the machine after the step, the unconsumed stdin bytes, and the bytes the
step wrote to stdout (program output only; diagnostic messages are not
modelled). -/
structure TickResult where
  cont : Bool
  machine : Machine
  input : List Nat
  output : List Nat
deriving DecidableEq, Repr

/-- The execute half of `Machine::tick`: the `match` on the decoded `Op`.
`m` is the machine after decoding, `input` the pending stdin bytes. -/
def exec (m : Machine) (op : Op) (input : List Nat) :
    Except Fault TickResult :=
  match op with
  | .Halt => .ok ⟨false, m, input, []⟩
  | .Set a b =>
    match m.value b with
    | .error e => .error e
    | .ok val =>
      match m.set_register a val with
      | .error e => .error e
      | .ok m1 => .ok ⟨true, m1, input, []⟩
  | .Push a =>
    match m.value a with
    | .error e => .error e
    | .ok val => .ok ⟨true, { m with stack := val :: m.stack }, input, []⟩
  | .Pop a =>
    match m.stack with
    | [] => .error .stackUnderflow
    | top :: rest =>
      match Machine.set_register { m with stack := rest } a top with
      | .error e => .error e
      | .ok m1 => .ok ⟨true, m1, input, []⟩
  | .Eq a b c =>
    match m.value b with
    | .error e => .error e
    | .ok vb =>
      match m.value c with
      | .error e => .error e
      | .ok vc =>
        match m.set_register a (if vb = vc then 1 else 0) with
        | .error e => .error e
        | .ok m1 => .ok ⟨true, m1, input, []⟩
  | .Gt a b c =>
    match m.value b with
    | .error e => .error e
    | .ok vb =>
      match m.value c with
      | .error e => .error e
      | .ok vc =>
        match m.set_register a (if vc < vb then 1 else 0) with
        | .error e => .error e
        | .ok m1 => .ok ⟨true, m1, input, []⟩
  | .Jmp a =>
    match m.value a with
    | .error e => .error e
    | .ok va => .ok ⟨true, { m with ip := va }, input, []⟩
  | .Jt a b =>
    match m.value a with
    | .error e => .error e
    | .ok va =>
      if va ≠ 0 then
        match m.value b with
        | .error e => .error e
        | .ok vb => .ok ⟨true, { m with ip := vb }, input, []⟩
      else
        .ok ⟨true, m, input, []⟩
  | .Jf a b =>
    match m.value a with
    | .error e => .error e
    | .ok va =>
      if va = 0 then
        match m.value b with
        | .error e => .error e
        | .ok vb => .ok ⟨true, { m with ip := vb }, input, []⟩
      else
        .ok ⟨true, m, input, []⟩
  | .Add a b c =>
    match m.value b with
    | .error e => .error e
    | .ok vb =>
      match m.value c with
      | .error e => .error e
      | .ok vc =>
        match m.set_register a (m.add vb vc) with
        | .error e => .error e
        | .ok m1 => .ok ⟨true, m1, input, []⟩
  | .Mult a b c =>
    match m.value b with
    | .error e => .error e
    | .ok vb =>
      match m.value c with
      | .error e => .error e
      | .ok vc =>
        match m.set_register a (m.mult vb vc) with
        | .error e => .error e
        | .ok m1 => .ok ⟨true, m1, input, []⟩
  | .Mod a b c =>
    match m.value b with
    | .error e => .error e
    | .ok vb =>
      match m.value c with
      | .error e => .error e
      | .ok vc =>
        if vc = 0 then
          .error .divZero
        else
          match m.set_register a (vb % vc) with
          | .error e => .error e
          | .ok m1 => .ok ⟨true, m1, input, []⟩
  | .And a b c =>
    match m.value b with
    | .error e => .error e
    | .ok vb =>
      match m.value c with
      | .error e => .error e
      | .ok vc =>
        match m.set_register a (vb &&& vc) with
        | .error e => .error e
        | .ok m1 => .ok ⟨true, m1, input, []⟩
  | .Or a b c =>
    match m.value b with
    | .error e => .error e
    | .ok vb =>
      match m.value c with
      | .error e => .error e
      | .ok vc =>
        match m.set_register a (vb ||| vc) with
        | .error e => .error e
        | .ok m1 => .ok ⟨true, m1, input, []⟩
  | .Not a b =>
    match m.value b with
    | .error e => .error e
    | .ok vb =>
      match m.set_register a (notOp vb) with
      | .error e => .error e
      | .ok m1 => .ok ⟨true, m1, input, []⟩
  | .Rmem a b =>
    match m.value b with
    | .error e => .error e
    | .ok vb =>
      match m.memory[vb]? with
      | none => .error .oob
      | some val =>
        match m.set_register a val with
        | .error e => .error e
        | .ok m1 => .ok ⟨true, m1, input, []⟩
  | .Wmem a b =>
    match m.value b with
    | .error e => .error e
    | .ok val =>
      match m.value a with
      | .error e => .error e
      | .ok dest =>
        if dest < m.memory.length then
          .ok ⟨true, { m with memory := m.memory.set dest val }, input, []⟩
        else
          .error .oob
  | .Call a =>
    match Machine.value { m with stack := m.ip :: m.stack } a with
    | .error e => .error e
    | .ok va => .ok ⟨true, { m with stack := m.ip :: m.stack, ip := va }, input, []⟩
  | .Ret =>
    match m.stack with
    | [] => .ok ⟨false, m, input, []⟩
    | addr :: rest => .ok ⟨true, { m with stack := rest, ip := addr }, input, []⟩
  | .Out a =>
    match m.value a with
    | .error e => .error e
    | .ok va => .ok ⟨true, m, input, [va % 256]⟩
  | .In a =>
    match input with
    | [] => .error .eof
    | c :: rest =>
      match m.set_register a c with
      | .error e => .error e
      | .ok m1 => .ok ⟨true, m1, rest, []⟩
  | .Noop => .ok ⟨true, m, input, []⟩
  | .Invalid _ => .ok ⟨false, m, input, []⟩

/-- `Machine::tick`: decode the next instruction, then execute it. -/
def Machine.tick (m : Machine) (input : List Nat) :
    Except Fault TickResult :=
  match m.decode with
  | .error e => .error e
  | .ok (op, m1) => exec m1 op input

/-- The number of argument words each opcode consumes after its opcode
word (`Invalid` consumes none: it is the catch-all of `decode`). -/
def argCount : Op → Nat
  | .Halt => 0
  | .Set _ _ => 2
  | .Push _ => 1
  | .Pop _ => 1
  | .Eq _ _ _ => 3
  | .Gt _ _ _ => 3
  | .Jmp _ => 1
  | .Jt _ _ => 2
  | .Jf _ _ => 2
  | .Add _ _ _ => 3
  | .Mult _ _ _ => 3
  | .Mod _ _ _ => 3
  | .And _ _ _ => 3
  | .Or _ _ _ => 3
  | .Not _ _ => 2
  | .Rmem _ _ => 2
  | .Wmem _ _ => 2
  | .Call _ => 1
  | .Ret => 0
  | .Out _ => 1
  | .In _ => 1
  | .Noop => 0
  | .Invalid _ => 0

/-- Machine states reachable from `m` by repeated (successful) ticks.
Stdin delivers bytes, so every input byte is below 256. -/
inductive Reach : Machine → Machine → Prop where
  | refl (m : Machine) : Reach m m
  | step {m m' : Machine} {input : List Nat} {r : TickResult} :
      Reach m m' → (∀ b ∈ input, b < 256) → m'.tick input = .ok r →
      Reach m r.machine

/-! ### Basic facts about fetching and decoding -/

/-- A successful `next` returns the word at `ip`, bumps `ip` modulo 2^16 and
leaves everything else unchanged. -/
theorem next_spec {m : Machine} {w : Nat} {m1 : Machine}
    (h : m.next = .ok (w, m1)) :
    m1.memory = m.memory ∧ m1.registers = m.registers ∧ m1.stack = m.stack ∧
    m.ip < m.memory.length ∧ m1.ip = (m.ip + 1) % 65536 ∧
    m.memory[m.ip]? = some w := by
  unfold Machine.next at h
  split at h
  · rename_i ret heq
    simp only [Except.ok.injEq, Prod.mk.injEq] at h
    obtain ⟨rfl, rfl⟩ := h
    exact ⟨rfl, rfl, rfl, (List.getElem?_eq_some_iff.mp heq).1, rfl, heq⟩
  · simp at h

/-- A successful `next2` is two successful `next` calls. -/
theorem next2_split {m : Machine} {a b : Nat} {m2 : Machine}
    (h : m.next2 = .ok (a, b, m2)) :
    ∃ mB, m.next = .ok (a, mB) ∧ mB.next = .ok (b, m2) := by
  unfold Machine.next2 at h
  split at h
  · simp at h
  · rename_i a' mB heq
    split at h
    · simp at h
    · rename_i b' m2' heq2
      simp only [Except.ok.injEq, Prod.mk.injEq] at h
      obtain ⟨rfl, rfl, rfl⟩ := h
      exact ⟨mB, heq, heq2⟩

/-- A successful `next3` is three successful `next` calls. -/
theorem next3_split {m : Machine} {a b c : Nat} {m3 : Machine}
    (h : m.next3 = .ok (a, b, c, m3)) :
    ∃ mB mC, m.next = .ok (a, mB) ∧ mB.next = .ok (b, mC) ∧
      mC.next = .ok (c, m3) := by
  unfold Machine.next3 at h
  split at h
  · simp at h
  · rename_i a' b' mC heq
    split at h
    · simp at h
    · rename_i c' m3' heq2
      simp only [Except.ok.injEq, Prod.mk.injEq] at h
      obtain ⟨rfl, rfl, rfl, rfl⟩ := h
      obtain ⟨mB, h1, h2⟩ := next2_split heq
      exact ⟨mB, mC, h1, h2, heq2⟩

/-- Everything a successful `decodeOp` guarantees: memory, registers and
the stack are untouched, `ip` has advanced by exactly the opcode's argument
count (when no fetch wrapped), and the opcode word determines the
constructor. -/
theorem decodeOp_spec {m : Machine} {w : Nat} {op : Op} {m1 : Machine}
    (hd : decodeOp m w = .ok (op, m1)) :
    m1.memory = m.memory ∧ m1.registers = m.registers ∧ m1.stack = m.stack ∧
    (m1.ip = m.ip ∨ m1.ip < 65536) ∧
    (w ≤ 21 → m.memory.length ≤ 65535 → m1.ip = m.ip + argCount op) ∧
    (op = .Halt ↔ w = 0) ∧ (op = .Ret ↔ w = 18) ∧
    ((∃ v, op = .Invalid v) ↔ 21 < w) := by
  rcases le_or_lt w 21 with h21 | h21
  · interval_cases w <;>
    first
    | -- zero-argument opcodes
      (simp only [decodeOp] at hd
       simp only [Except.ok.injEq, Prod.mk.injEq] at hd
       obtain ⟨rfl, rfl⟩ := hd
       exact ⟨rfl, rfl, rfl, Or.inl rfl, fun _ _ => by simp [argCount],
         by simp, by simp, by simp⟩)
    | -- one-argument opcodes
      (simp only [decodeOp] at hd
       split at hd
       · simp at hd
       · rename_i a mB heq
         simp only [Except.ok.injEq, Prod.mk.injEq] at hd
         obtain ⟨rfl, rfl⟩ := hd
         obtain ⟨e1m, e1r, e1s, e1lt, e1ip, -⟩ := next_spec heq
         refine ⟨e1m, e1r, e1s, Or.inr (by omega), fun _ hlen => ?_,
           by simp, by simp, by simp⟩
         simp only [argCount]
         omega)
    | -- two-argument opcodes
      (simp only [decodeOp] at hd
       split at hd
       · simp at hd
       · rename_i a b mB heq
         simp only [Except.ok.injEq, Prod.mk.injEq] at hd
         obtain ⟨rfl, rfl⟩ := hd
         obtain ⟨mC, h1, h2⟩ := next2_split heq
         obtain ⟨e1m, e1r, e1s, e1lt, e1ip, -⟩ := next_spec h1
         obtain ⟨e2m, e2r, e2s, e2lt, e2ip, -⟩ := next_spec h2
         rw [e1m] at e2lt
         refine ⟨by rw [e2m, e1m], by rw [e2r, e1r], by rw [e2s, e1s],
           Or.inr (by omega), fun _ hlen => ?_, by simp, by simp, by simp⟩
         simp only [argCount]
         omega)
    | -- three-argument opcodes
      (simp only [decodeOp] at hd
       split at hd
       · simp at hd
       · rename_i a b c mB heq
         simp only [Except.ok.injEq, Prod.mk.injEq] at hd
         obtain ⟨rfl, rfl⟩ := hd
         obtain ⟨mC, mD, h1, h2, h3⟩ := next3_split heq
         obtain ⟨e1m, e1r, e1s, e1lt, e1ip, -⟩ := next_spec h1
         obtain ⟨e2m, e2r, e2s, e2lt, e2ip, -⟩ := next_spec h2
         obtain ⟨e3m, e3r, e3s, e3lt, e3ip, -⟩ := next_spec h3
         rw [e1m] at e2lt
         rw [e2m, e1m] at e3lt
         refine ⟨by rw [e3m, e2m, e1m], by rw [e3r, e2r, e1r],
           by rw [e3s, e2s, e1s], Or.inr (by omega), fun _ hlen => ?_,
           by simp, by simp, by simp⟩
         simp only [argCount]
         omega)
  · obtain ⟨n, rfl⟩ : ∃ n, w = n + 22 := ⟨w - 22, by omega⟩
    have hred : decodeOp m (n + 22) = .ok (.Invalid (n + 22), m) := rfl
    rw [hred] at hd
    simp only [Except.ok.injEq, Prod.mk.injEq] at hd
    obtain ⟨rfl, rfl⟩ := hd
    refine ⟨rfl, rfl, rfl, Or.inl rfl, fun hle _ => by omega,
      by simp, by simp, ⟨fun _ => by omega, fun _ => ⟨n + 22, rfl⟩⟩⟩

/-! ### The 16-bit well-formedness invariant -/

/-- Every word the machine holds is a `u16` value.  This is the invariant
the Rust types enforce for free; in the `Nat` embedding it is proved. -/
def WF (m : Machine) : Prop :=
  (∀ x ∈ m.memory, x < 65536) ∧ (∀ x ∈ m.registers, x < 65536) ∧
    (∀ x ∈ m.stack, x < 65536) ∧ m.ip < 65536

/-- A resolved operand of a well-formed machine is a `u16` value. -/
theorem value_lt {m : Machine} {v x : Nat} (hwf : WF m)
    (h : m.value v = .ok x) : x < 65536 := by
  unfold Machine.value at h
  split at h
  · simp only [Except.ok.injEq] at h
    omega
  · split at h
    · unfold Machine.get_register at h
      split at h
      · rename_i y heq
        simp only [Except.ok.injEq] at h
        subst h
        exact hwf.2.1 y (List.getElem?_mem heq)
      · simp at h
    · simp at h

/-- `set_register` of a `u16` value preserves well-formedness. -/
theorem set_register_wf {m : Machine} {a val : Nat} {m1 : Machine}
    (hwf : WF m) (hval : val < 65536) (h : m.set_register a val = .ok m1) :
    WF m1 := by
  unfold Machine.set_register at h
  split at h
  · simp only [Except.ok.injEq] at h
    subst h
    refine ⟨hwf.1, fun x hx => ?_, hwf.2.2⟩
    rcases List.mem_or_eq_of_mem_set hx with hx' | rfl
    · exact hwf.2.1 x hx'
    · exact hval
  · simp at h

/-- A successful `next` preserves well-formedness. -/
theorem next_wf {m : Machine} {w : Nat} {m1 : Machine} (hwf : WF m)
    (h : m.next = .ok (w, m1)) : WF m1 := by
  obtain ⟨hm, hr, hs, -, hip, -⟩ := next_spec h
  exact ⟨hm ▸ hwf.1, hr ▸ hwf.2.1, hs ▸ hwf.2.2.1, by omega⟩

/-- A successful `decode` preserves well-formedness. -/
theorem decode_wf {m : Machine} {op : Op} {m1 : Machine} (hwf : WF m)
    (h : m.decode = .ok (op, m1)) : WF m1 := by
  unfold Machine.decode at h
  split at h
  · simp at h
  · rename_i w mB heq
    have hwfB := next_wf hwf heq
    obtain ⟨hm, hr, hs, hip, -⟩ := decodeOp_spec h
    refine ⟨hm ▸ hwfB.1, hr ▸ hwfB.2.1, hs ▸ hwfB.2.2.1, ?_⟩
    rcases hip with hip | hip
    · rw [hip]
      exact hwfB.2.2.2
    · exact hip

/-- A successful `exec` returns `cont = false` exactly for `Halt`, for an
`Invalid` opcode, and for `Ret` on an empty stack. -/
theorem exec_cont {m : Machine} {op : Op} {input : List Nat}
    {r : TickResult} (h : exec m op input = .ok r) :
    r.cont = false ↔
      (op = .Halt ∨ (∃ v, op = .Invalid v) ∨ (op = .Ret ∧ m.stack = [])) := by
  cases op <;> simp only [exec] at h <;> (repeat' (split at h)) <;>
    first
    | (simp only [Except.ok.injEq] at h
       subst h
       simp_all)
    | simp at h

/-- `u16` values are closed under `|||`. -/
theorem lor_lt_65536 {a b : Nat} (ha : a < 65536) (hb : b < 65536) :
    a ||| b < 65536 := by
  have h : a ||| b < 2 ^ 16 :=
    Nat.or_lt_two_pow (by simpa using ha) (by simpa using hb)
  simpa using h

/-- Pushing a `u16` value preserves well-formedness. -/
theorem wf_push {m : Machine} {v : Nat} (hwf : WF m) (hv : v < 65536) :
    WF { m with stack := v :: m.stack } := by
  refine ⟨hwf.1, hwf.2.1, fun x hx => ?_, hwf.2.2.2⟩
  rcases List.mem_cons.mp hx with rfl | hx'
  · exact hv
  · exact hwf.2.2.1 x hx'

/-- Dropping the top of the stack preserves well-formedness; the dropped
word is a `u16` value. -/
theorem wf_pop {m : Machine} {t : Nat} {rest : List Nat} (hwf : WF m)
    (hs : m.stack = t :: rest) :
    WF { m with stack := rest } ∧ t < 65536 := by
  refine ⟨⟨hwf.1, hwf.2.1, fun x hx => ?_, hwf.2.2.2⟩, ?_⟩
  · exact hwf.2.2.1 x (hs ▸ List.mem_cons_of_mem t hx)
  · exact hwf.2.2.1 t (hs ▸ List.mem_cons_self t rest)

/-- Overwriting `ip` with a `u16` value preserves well-formedness. -/
theorem wf_ip {m : Machine} {v : Nat} (hwf : WF m) (hv : v < 65536) :
    WF { m with ip := v } :=
  ⟨hwf.1, hwf.2.1, hwf.2.2.1, hv⟩

/-- Writing a `u16` value into memory preserves well-formedness. -/
theorem wf_wmem {m : Machine} {dest val : Nat} (hwf : WF m)
    (hval : val < 65536) :
    WF { m with memory := m.memory.set dest val } := by
  refine ⟨fun x hx => ?_, hwf.2.1, hwf.2.2.1, hwf.2.2.2⟩
  rcases List.mem_or_eq_of_mem_set hx with hx' | rfl
  · exact hwf.1 x hx'
  · exact hval

/-- A successful `exec` preserves well-formedness, as long as the pending
input is a byte stream. -/
theorem exec_wf {m : Machine} {op : Op} {input : List Nat} {r : TickResult}
    (hwf : WF m) (hin : ∀ b ∈ input, b < 256)
    (h : exec m op input = .ok r) : WF r.machine := by
  cases op
  case Halt =>
    simp only [exec, Except.ok.injEq] at h
    subst h
    exact hwf
  case Set a b =>
    simp only [exec] at h
    split at h
    · simp at h
    rename_i v hv
    split at h
    · simp at h
    rename_i m1 hs
    simp only [Except.ok.injEq] at h
    subst h
    exact set_register_wf hwf (value_lt hwf hv) hs
  case Push a =>
    simp only [exec] at h
    split at h
    · simp at h
    rename_i v hv
    simp only [Except.ok.injEq] at h
    subst h
    exact wf_push hwf (value_lt hwf hv)
  case Pop a =>
    simp only [exec] at h
    split at h
    · simp at h
    rename_i top rest hs
    split at h
    · simp at h
    rename_i m1 hset
    simp only [Except.ok.injEq] at h
    subst h
    obtain ⟨hwf', htop⟩ := wf_pop hwf hs
    exact set_register_wf hwf' htop hset
  case Eq a b c =>
    simp only [exec] at h
    split at h
    · simp at h
    rename_i vb hvb
    split at h
    · simp at h
    rename_i vc hvc
    split at h
    · simp at h
    rename_i m1 hs
    simp only [Except.ok.injEq] at h
    subst h
    exact set_register_wf hwf (by split <;> omega) hs
  case Gt a b c =>
    simp only [exec] at h
    split at h
    · simp at h
    rename_i vb hvb
    split at h
    · simp at h
    rename_i vc hvc
    split at h
    · simp at h
    rename_i m1 hs
    simp only [Except.ok.injEq] at h
    subst h
    exact set_register_wf hwf (by split <;> omega) hs
  case Jmp a =>
    simp only [exec] at h
    split at h
    · simp at h
    rename_i v hv
    simp only [Except.ok.injEq] at h
    subst h
    exact wf_ip hwf (value_lt hwf hv)
  case Jt a b =>
    simp only [exec] at h
    split at h
    · simp at h
    rename_i va hva
    split at h
    · split at h
      · simp at h
      rename_i vb hvb
      simp only [Except.ok.injEq] at h
      subst h
      exact wf_ip hwf (value_lt hwf hvb)
    · simp only [Except.ok.injEq] at h
      subst h
      exact hwf
  case Jf a b =>
    simp only [exec] at h
    split at h
    · simp at h
    rename_i va hva
    split at h
    · split at h
      · simp at h
      rename_i vb hvb
      simp only [Except.ok.injEq] at h
      subst h
      exact wf_ip hwf (value_lt hwf hvb)
    · simp only [Except.ok.injEq] at h
      subst h
      exact hwf
  case Add a b c =>
    simp only [exec] at h
    split at h
    · simp at h
    rename_i vb hvb
    split at h
    · simp at h
    rename_i vc hvc
    split at h
    · simp at h
    rename_i m1 hs
    simp only [Except.ok.injEq] at h
    subst h
    refine set_register_wf hwf ?_ hs
    have : Machine.add m vb vc < 32768 := Nat.mod_lt _ (by omega)
    omega
  case Mult a b c =>
    simp only [exec] at h
    split at h
    · simp at h
    rename_i vb hvb
    split at h
    · simp at h
    rename_i vc hvc
    split at h
    · simp at h
    rename_i m1 hs
    simp only [Except.ok.injEq] at h
    subst h
    refine set_register_wf hwf ?_ hs
    have : Machine.mult m vb vc < 32768 := Nat.mod_lt _ (by omega)
    omega
  case Mod a b c =>
    simp only [exec] at h
    split at h
    · simp at h
    rename_i vb hvb
    split at h
    · simp at h
    rename_i vc hvc
    split at h
    · simp at h
    split at h
    · simp at h
    rename_i m1 hs
    simp only [Except.ok.injEq] at h
    subst h
    refine set_register_wf hwf ?_ hs
    exact lt_of_le_of_lt (Nat.mod_le vb vc) (value_lt hwf hvb)
  case And a b c =>
    simp only [exec] at h
    split at h
    · simp at h
    rename_i vb hvb
    split at h
    · simp at h
    rename_i vc hvc
    split at h
    · simp at h
    rename_i m1 hs
    simp only [Except.ok.injEq] at h
    subst h
    refine set_register_wf hwf ?_ hs
    exact lt_of_le_of_lt Nat.and_le_left (value_lt hwf hvb)
  case Or a b c =>
    simp only [exec] at h
    split at h
    · simp at h
    rename_i vb hvb
    split at h
    · simp at h
    rename_i vc hvc
    split at h
    · simp at h
    rename_i m1 hs
    simp only [Except.ok.injEq] at h
    subst h
    exact set_register_wf hwf
      (lor_lt_65536 (value_lt hwf hvb) (value_lt hwf hvc)) hs
  case Not a b =>
    simp only [exec] at h
    split at h
    · simp at h
    rename_i vb hvb
    split at h
    · simp at h
    rename_i m1 hs
    simp only [Except.ok.injEq] at h
    subst h
    refine set_register_wf hwf ?_ hs
    exact lt_of_le_of_lt Nat.and_le_right (by omega)
  case Rmem a b =>
    simp only [exec] at h
    split at h
    · simp at h
    rename_i vb hvb
    split at h
    · simp at h
    rename_i val hval
    split at h
    · simp at h
    rename_i m1 hs
    simp only [Except.ok.injEq] at h
    subst h
    exact set_register_wf hwf (hwf.1 val (List.getElem?_mem hval)) hs
  case Wmem a b =>
    simp only [exec] at h
    split at h
    · simp at h
    rename_i val hval
    split at h
    · simp at h
    rename_i dest hdest
    split at h
    · simp only [Except.ok.injEq] at h
      subst h
      exact wf_wmem hwf (value_lt hwf hval)
    · simp at h
  case Call a =>
    simp only [exec] at h
    split at h
    · simp at h
    rename_i va hva
    simp only [Except.ok.injEq] at h
    subst h
    have hwf' := wf_push hwf hwf.2.2.2
    exact wf_ip hwf' (value_lt hwf' hva)
  case Ret =>
    simp only [exec] at h
    split at h
    · simp only [Except.ok.injEq] at h
      subst h
      exact hwf
    · rename_i addr rest hs
      simp only [Except.ok.injEq] at h
      subst h
      obtain ⟨hwf', haddr⟩ := wf_pop hwf hs
      exact wf_ip hwf' haddr
  case Out a =>
    simp only [exec] at h
    split at h
    · simp at h
    rename_i va hva
    simp only [Except.ok.injEq] at h
    subst h
    exact hwf
  case In a =>
    simp only [exec] at h
    split at h
    · simp at h
    rename_i c rest
    split at h
    · simp at h
    rename_i m1 hs
    simp only [Except.ok.injEq] at h
    subst h
    refine set_register_wf hwf ?_ hs
    have := hin c (List.mem_cons_self c rest)
    omega
  case Noop =>
    simp only [exec, Except.ok.injEq] at h
    subst h
    exact hwf
  case Invalid w =>
    simp only [exec, Except.ok.injEq] at h
    subst h
    exact hwf

/-- A successful `tick` preserves well-formedness. -/
theorem tick_wf {m : Machine} {input : List Nat} {r : TickResult}
    (hwf : WF m) (hin : ∀ b ∈ input, b < 256)
    (h : m.tick input = .ok r) : WF r.machine := by
  unfold Machine.tick at h
  split at h
  · simp at h
  · rename_i op m1 heq
    exact exec_wf (decode_wf hwf heq) hin h

/-! ### The load loop -/

/-- What a terminating run of the load loop produces, assuming the loop
bound stays inside the buffer (`hbound`), the buffer's pairs fit in memory
(`hml`), and the running index is even (`hi`): the loop succeeds, memory
keeps its length, every pair position from `i` on is written with its
little-endian word, and every other cell is untouched. -/
theorem loadLoop_spec {buf : List Nat} (mem0 : List Nat) (bound0 i0 : Nat) :
    i0 % 2 = 0 → bound0 ≤ 2 * mem0.length → bound0 < buf.length →
    ∃ mem', loadLoop buf mem0 bound0 i0 = .ok mem' ∧
      mem'.length = mem0.length ∧
      (∀ j, i0 ≤ 2 * j → 2 * j < bound0 →
        mem'[j]? = some ((buf.getD (2 * j) 0) ||| ((buf.getD (2 * j + 1) 0) <<< 8))) ∧
      (∀ j, ¬(i0 ≤ 2 * j ∧ 2 * j < bound0) → mem'[j]? = mem0[j]?) := by
  refine loadLoop.induct buf (fun mem bound i =>
      i % 2 = 0 → bound ≤ 2 * mem.length → bound < buf.length →
      ∃ mem', loadLoop buf mem bound i = .ok mem' ∧
        mem'.length = mem.length ∧
        (∀ j, i ≤ 2 * j → 2 * j < bound →
          mem'[j]? = some ((buf.getD (2 * j) 0) ||| ((buf.getD (2 * j + 1) 0) <<< 8))) ∧
        (∀ j, ¬(i ≤ 2 * j ∧ 2 * j < bound) → mem'[j]? = mem[j]?))
    ?_ ?_ ?_ ?_ mem0 bound0 i0
  · intro mem bound i hlt b0 b1 hb1 hb0 hmlt ih hi hml hbound
    obtain ⟨mem', hload, hlen, hwrites, hrest⟩ :=
      ih (by omega) (by simpa using hml) hbound
    refine ⟨mem', ?_, by simpa using hlen, ?_, ?_⟩
    · rw [loadLoop, dif_pos hlt]
      simp only [hb0, hb1]
      rw [if_pos hmlt]
      exact hload
    · intro j hj1 hj2
      rcases Nat.lt_or_ge (2 * j) (i + 2) with hj3 | hj3
      · have hji : 2 * j = i := by omega
        have hji2 : j = i / 2 := by omega
        have hg0 : buf.getD (2 * j) 0 = b0 := by
          rw [List.getD_eq_getElem?_getD, hji, hb0]
          rfl
        have hg1 : buf.getD (2 * j + 1) 0 = b1 := by
          rw [List.getD_eq_getElem?_getD, hji, hb1]
          rfl
        have hset : (mem.set (i / 2) (b0 ||| (b1 <<< 8)))[j]? =
            some (b0 ||| (b1 <<< 8)) := by
          rw [hji2]
          exact List.getElem?_set_eq_of_lt _ hmlt
        rw [hrest j (by omega), hset, hg0, hg1]
      · exact hwrites j hj3 hj2
    · intro j hj
      rw [hrest j (by omega), List.getElem?_set_ne (by omega)]
  · intro mem bound i hlt b0 b1 hb1 hb0 hmlt hi hml hbound
    omega
  · intro mem bound i hlt hnone hi hml hbound
    exact ((hnone buf[i] buf[i + 1] (List.getElem?_eq_getElem (by omega))
      (List.getElem?_eq_getElem (by omega)))).elim
  · intro mem bound i hge hi hml hbound
    refine ⟨mem, ?_, rfl, fun j hj1 hj2 => by omega, fun j hj => rfl⟩
    rw [loadLoop, dif_neg hge]

/-- `Machine::load` on a non-empty image that fits in memory: the loop
bound `buf.len() - 1` does not wrap, every byte pair is written in order as
a little-endian word, the rest of memory is untouched, and the byte count
returned is the full buffer length. -/
theorem load_spec (m : Machine) (buf : List Nat) (h1 : 1 ≤ buf.length)
    (h2 : buf.length ≤ 65537) (hm : m.memory.length = 32768) :
    ∃ mem', m.load buf = .ok ({ m with memory := mem' }, buf.length) ∧
      mem'.length = 32768 ∧
      (∀ j, j < buf.length / 2 →
        mem'[j]? = some ((buf.getD (2 * j) 0) ||| ((buf.getD (2 * j + 1) 0) <<< 8))) ∧
      (∀ j, buf.length / 2 ≤ j → mem'[j]? = m.memory[j]?) := by
  have hbound : (buf.length + 18446744073709551615) % 18446744073709551616 =
      buf.length - 1 := by
    omega
  have hspec := @loadLoop_spec buf m.memory (buf.length - 1) 0
  obtain ⟨mem', hload, hlen, hwrites, hrest⟩ :=
    hspec rfl (by omega) (by omega)
  refine ⟨mem', ?_, by omega, fun j hj => ?_, fun j hj => ?_⟩
  · rw [Machine.load, hbound, hload]
    rfl
  · exact hwrites j (by omega) (by omega)
  · exact hrest j (by omega)

/-- The load loop writes only `u16` words when fed bytes. -/
theorem loadLoop_wf {buf : List Nat} (hbuf : ∀ b ∈ buf, b < 256)
    {mem' : List Nat} (mem0 : List Nat) (bound0 i0 : Nat) :
    (∀ x ∈ mem0, x < 65536) → loadLoop buf mem0 bound0 i0 = .ok mem' →
    ∀ x ∈ mem', x < 65536 := by
  refine loadLoop.induct buf (fun mem bound i =>
      (∀ x ∈ mem, x < 65536) → loadLoop buf mem bound i = .ok mem' →
      ∀ x ∈ mem', x < 65536) ?_ ?_ ?_ ?_ mem0 bound0 i0
  · intro mem bound i hlt b0 b1 hb1 hb0 hmlt ih hmem hload
    rw [loadLoop, dif_pos hlt] at hload
    simp only [hb0, hb1] at hload
    rw [if_pos hmlt] at hload
    refine ih ?_ hload
    intro x hx
    rcases List.mem_or_eq_of_mem_set hx with hx' | rfl
    · exact hmem x hx'
    · refine lor_lt_65536 ?_ ?_
      · have := hbuf b0 (List.getElem?_mem hb0)
        omega
      · have := hbuf b1 (List.getElem?_mem hb1)
        rw [Nat.shiftLeft_eq]
        omega
  · intro mem bound i hlt b0 b1 hb1 hb0 hmlt hmem hload
    rw [loadLoop, dif_pos hlt] at hload
    simp only [hb0, hb1] at hload
    rw [if_neg hmlt] at hload
    exact absurd hload (by simp)
  · intro mem bound i hlt hnone hmem hload
    rw [loadLoop, dif_pos hlt] at hload
    rcases h0 : buf[i]? with _ | b0 <;> rcases h1 : buf[i + 1]? with _ | b1 <;>
      simp only [h0, h1] at hload <;> try exact absurd hload (by simp)
    exact ((hnone b0 b1 h0 h1)).elim
  · intro mem bound i hge hmem hload
    rw [loadLoop, dif_neg hge] at hload
    simp only [Except.ok.injEq] at hload
    subst hload
    exact hmem

/-- `Machine.new` is well-formed. -/
theorem wf_new : WF Machine.new := by
  refine ⟨fun x hx => ?_, fun x hx => ?_, fun x hx => ?_, ?_⟩
  · rw [show Machine.new.memory = List.replicate 32768 0 from rfl] at hx
    have hx0 : x = 0 := List.eq_of_mem_replicate hx
    omega
  · rw [show Machine.new.registers = List.replicate 8 0 from rfl] at hx
    have hx0 : x = 0 := List.eq_of_mem_replicate hx
    omega
  · rw [show Machine.new.stack = ([] : List Nat) from rfl] at hx
    exact absurd hx (List.not_mem_nil x)
  · rw [show Machine.new.ip = 0 from rfl]
    omega

/-- Loading a byte image into a well-formed machine keeps it
well-formed. -/
theorem load_wf {m : Machine} {buf : List Nat} {m1 : Machine} {n : Nat}
    (hwf : WF m) (hbuf : ∀ b ∈ buf, b < 256)
    (h : m.load buf = .ok (m1, n)) : WF m1 := by
  rw [Machine.load] at h
  cases heq :
      loadLoop buf m.memory
        ((buf.length + 18446744073709551615) % 18446744073709551616) 0 with
  | error e =>
    rw [heq] at h
    exact absurd h (by simp [Except.map])
  | ok mem =>
    rw [heq] at h
    simp only [Except.map, Except.ok.injEq, Prod.mk.injEq] at h
    obtain ⟨rfl, rfl⟩ := h
    exact ⟨loadLoop_wf hbuf m.memory _ _ hwf.1 heq, hwf.2.1, hwf.2.2.1,
      hwf.2.2.2⟩

/-- Every state reachable from a well-formed machine is well-formed. -/
theorem reach_wf {m0 m : Machine} (hwf : WF m0) (h : Reach m0 m) : WF m := by
  induction h with
  | refl => exact hwf
  | step hr hin htick ih => exact tick_wf ih hin htick

/-- `value` only reads the register file, so it is invariant under changes
to memory, stack and `ip`. -/
theorem value_only_registers (m m' : Machine)
    (h : m'.registers = m.registers) (v : Nat) : m'.value v = m.value v := by
  unfold Machine.value Machine.get_register
  rw [h]

/-- Loading an empty image faults: the `usize` loop bound `buf.len() - 1`
wraps to 2^64 − 1, and the first iteration indexes `buf[0]` of the empty
buffer. -/
theorem load_nil_fault (m : Machine) : m.load [] = .error .oob := by
  rw [Machine.load, loadLoop]
  norm_num [Except.map]

end Synacor

deriving instance DecidableEq for Except

namespace Synacor

/-! ### The claims -/

/-- C1: operand resolution satisfies the three-case contract: a raw
operand `v ≤ 32767` resolves to `v` itself; `32768 ≤ v ≤ 32775` resolves
to the contents of register `v − 32768`; and `v > 32775` does not resolve
but reaches the fatal invalid-argument branch. -/
theorem C1_value_three_cases (m : Machine) (v : Nat) :
    (v ≤ 32767 → m.value v = .ok v) ∧
    (32768 ≤ v → v ≤ 32775 → m.registers.length = 8 →
      m.value v = .ok (m.registers.getD (v - 32768) 0)) ∧
    (32775 < v → m.value v = .error .invalidArg) := by
  refine ⟨fun h => by simp [Machine.value, h], fun h1 h2 h8 => ?_, fun h => ?_⟩
  · have hidx : (v + 32768) % 65536 = v - 32768 := by omega
    have hlt : v - 32768 < m.registers.length := by omega
    unfold Machine.value Machine.get_register
    rw [if_neg (by omega), if_pos h2, hidx, List.getElem?_eq_getElem hlt,
      List.getD_eq_getElem?_getD, List.getElem?_eq_getElem hlt]
    rfl
  · unfold Machine.value
    rw [if_neg (by omega), if_neg (by omega)]

/-- Witness for C1 at `v = 7`, `v = 32770` (register 2 holds 7) and
`v = 40000`. -/
theorem C1_witness :
    Machine.value ⟨[], [9, 8, 7, 6, 5, 4, 3, 2], [], 0⟩ 7 = .ok 7 ∧
    Machine.value ⟨[], [9, 8, 7, 6, 5, 4, 3, 2], [], 0⟩ 32770 = .ok 7 ∧
    Machine.value ⟨[], [9, 8, 7, 6, 5, 4, 3, 2], [], 0⟩ 40000 =
      .error .invalidArg := by
  refine ⟨(C1_value_three_cases _ 7).1 (by norm_num), ?_,
    (C1_value_three_cases _ 40000).2.2 (by norm_num)⟩
  exact (C1_value_three_cases ⟨[], [9, 8, 7, 6, 5, 4, 3, 2], [], 0⟩ 32770).2.1
    (by norm_num) (by norm_num) rfl

/-- C5: for `a, b` in 0–32767 the `add` and `mult` helpers compute
`(a + b) % 32768` and `(a * b) % 32768`, the widened intermediates fit in
`u32` (no overflow), and both helpers are commutative. -/
theorem C5_add_mult (m : Machine) (a b : Nat)
    (ha : a ≤ 32767) (hb : b ≤ 32767) :
    m.add a b = (a + b) % 32768 ∧ m.mult a b = (a * b) % 32768 ∧
    m.add a b = m.add b a ∧ m.mult a b = m.mult b a ∧
    a + b < 4294967296 ∧ a * b < 4294967296 := by
  refine ⟨rfl, rfl, ?_, ?_, by omega, ?_⟩
  · unfold Machine.add
    rw [Nat.add_comm]
  · unfold Machine.mult
    rw [Nat.mul_comm]
  · calc a * b ≤ 32767 * 32767 := Nat.mul_le_mul ha hb
      _ < 4294967296 := by norm_num

/-- Witness for C5 at `a = 3`, `b = 5`. -/
theorem C5_witness :
    Machine.add Machine.new 3 5 = (3 + 5) % 32768 ∧
    Machine.mult Machine.new 3 5 = (3 * 5) % 32768 ∧
    Machine.add Machine.new 3 5 = Machine.add Machine.new 5 3 ∧
    Machine.mult Machine.new 3 5 = Machine.mult Machine.new 5 3 ∧
    3 + 5 < 4294967296 ∧ 3 * 5 < 4294967296 :=
  C5_add_mult Machine.new 3 5 (by norm_num) (by norm_num)

/-- C9: `Not` stores the 15-bit-masked complement of its resolved source
(the stored word never exceeds 32767, so its top bit is 0), and the masked
complement is an involution on 0–32767. -/
theorem C9_not_involution (m m1 : Machine) (a b v : Nat) (input : List Nat)
    (hv : m.value b = .ok v) (hs : m.set_register a (notOp v) = .ok m1) :
    exec m (.Not a b) input = .ok ⟨true, m1, input, []⟩ ∧
    notOp v ≤ 32767 ∧ (∀ x, x ≤ 32767 → notOp (notOp x) = x) := by
  refine ⟨by simp [exec, hv, hs], Nat.and_le_right, fun x hx => ?_⟩
  have hx' : x < 2 ^ 15 := by omega
  have hones : (65535 : Nat) = 2 ^ 16 - 1 := by norm_num
  have hmask : (32767 : Nat) = 2 ^ 15 - 1 := by norm_num
  apply Nat.eq_of_testBit_eq
  intro i
  unfold notOp
  rw [hones, hmask]
  simp only [Nat.testBit_and, Nat.testBit_xor, Nat.testBit_two_pow_sub_one]
  rcases Nat.lt_or_ge i 15 with hi | hi
  · simp [hi, show i < 16 by omega]
  · have hxb : x.testBit i = false :=
      Nat.testBit_lt_two_pow
        (lt_of_lt_of_le hx' (Nat.pow_le_pow_right (by norm_num) hi))
    simp [show ¬ i < 15 by omega, hxb]

/-- Witness for C9: `Not reg0 5` on a fresh register file stores
`notOp 5 = 32762`. -/
theorem C9_witness :
    exec ⟨[], [0, 0, 0, 0, 0, 0, 0, 0], [], 0⟩ (.Not 32768 5) [] =
      .ok ⟨true, ⟨[], [32762, 0, 0, 0, 0, 0, 0, 0], [], 0⟩, [], []⟩ ∧
    notOp 5 ≤ 32767 ∧ (∀ x, x ≤ 32767 → notOp (notOp x) = x) :=
  C9_not_involution ⟨[], [0, 0, 0, 0, 0, 0, 0, 0], [], 0⟩
    ⟨[], [32762, 0, 0, 0, 0, 0, 0, 0], [], 0⟩ 32768 5 5 []
    (by decide) (by decide)

/-- C10: loading a zero-length image is not a successful no-op: the
`usize` loop bound underflows and the first iteration indexes past the end
of the empty buffer — a fatal fault for any machine. -/
theorem C10_empty_image_fault (m : Machine) : m.load [] = .error .oob :=
  load_nil_fault m

/-- C6: a successful decode of an opcode word in 0–21 consumes the opcode
word plus exactly `argCount` argument words (0 for `Halt`/`Ret`/`Noop`, 1
for `Push`/`Pop`/`Jmp`/`Call`/`Out`/`In`, 2 for
`Set`/`Jt`/`Jf`/`Not`/`Rmem`/`Wmem`, 3 for the arithmetic/comparison
opcodes), each fetch advancing `ip` by one, so afterwards `ip` is one past
the full encoded instruction. -/
theorem C6_decode_ip (m : Machine) (w : Nat) (op : Op) (m1 : Machine)
    (hlen : m.memory.length ≤ 65535)
    (hw : m.memory[m.ip]? = some w) (h21 : w ≤ 21)
    (hd : m.decode = .ok (op, m1)) :
    m1.ip = m.ip + 1 + argCount op := by
  unfold Machine.decode at hd
  split at hd
  · simp at hd
  · rename_i w' mB heq
    obtain ⟨e1m, -, -, e1lt, e1ip, hw'⟩ := next_spec heq
    rw [hw] at hw'
    obtain rfl : w = w' := Option.some.inj hw'
    obtain ⟨-, -, -, -, hip, -, -, -⟩ := decodeOp_spec hd
    have hB := hip h21 (by rw [e1m]; exact hlen)
    omega

/-- Witness for C6: decoding `Noop` (21) at `ip = 0` leaves `ip = 1`. -/
theorem C6_witness :
    Machine.decode ⟨[21], [], [], 0⟩ = .ok (.Noop, ⟨[21], [], [], 1⟩) ∧
    (1 : Nat) = 0 + 1 + argCount .Noop := by
  refine ⟨by decide, ?_⟩
  exact C6_decode_ip ⟨[21], [], [], 0⟩ 21 .Noop ⟨[21], [], [], 1⟩
    (by decide) (by decide) (by decide) (by decide)

/-- C2: a successful `tick` returns `false` — the graceful transition to
Halted — exactly when the fetched opcode word is 0 (`Halt`), is above 21
(invalid opcode), or is 18 (`Ret`) with the execution stack empty; in
every other non-faulting case it returns `true`. -/
theorem C2_tick_halts_iff (m : Machine) (input : List Nat) (r : TickResult)
    (w : Nat) (hw : m.memory[m.ip]? = some w)
    (h : m.tick input = .ok r) :
    r.cont = false ↔ (w = 0 ∨ 21 < w ∨ (w = 18 ∧ m.stack = [])) := by
  unfold Machine.tick at h
  split at h
  · simp at h
  · rename_i op mA hdec
    unfold Machine.decode at hdec
    split at hdec
    · simp at hdec
    · rename_i w' mB heq
      obtain ⟨e1m, e1r, e1s, e1lt, e1ip, hw'⟩ := next_spec heq
      rw [hw] at hw'
      obtain rfl : w = w' := Option.some.inj hw'
      obtain ⟨-, -, hstk, -, -, hHalt, hRet, hInv⟩ := decodeOp_spec hdec
      rw [exec_cont h, hstk, e1s]
      constructor
      · rintro (hH | ⟨v, hI⟩ | ⟨hR, hs⟩)
        · exact Or.inl (hHalt.mp hH)
        · exact Or.inr (Or.inl (hInv.mp ⟨v, hI⟩))
        · exact Or.inr (Or.inr ⟨hRet.mp hR, hs⟩)
      · rintro (h0 | h21 | ⟨h18, hs⟩)
        · exact Or.inl (hHalt.mpr h0)
        · exact Or.inr (Or.inl (hInv.mpr h21))
        · exact Or.inr (Or.inr ⟨hRet.mpr h18, hs⟩)

/-- Witness for C2: ticking `Halt` at `ip = 0` returns `false`, and the
three-case condition holds at that opcode word. -/
theorem C2_witness :
    Machine.tick ⟨[0], [], [], 0⟩ [] = .ok ⟨false, ⟨[0], [], [], 1⟩, [], []⟩ ∧
    (false = false ↔
      ((0 : Nat) = 0 ∨ 21 < (0 : Nat) ∨
        ((0 : Nat) = 18 ∧ ([] : List Nat) = []))) := by
  have htick : Machine.tick ⟨[0], [], [], 0⟩ [] =
      .ok ⟨false, ⟨[0], [], [], 1⟩, [], []⟩ := by decide
  exact ⟨htick, C2_tick_halts_iff ⟨[0], [], [], 0⟩ [] _ 0 (by decide) htick⟩

/-- C4: `Pop` on an empty stack is a fatal underflow fault (the step does
not complete), while `Ret` on an empty stack completes cleanly with
`cont = false`; with a non-empty stack, `Pop` never reaches its underflow
branch and `Ret` completes with `cont = true`. -/
theorem C4_pop_ret_empty_stack (m : Machine) (a : Nat) (input : List Nat) :
    (m.stack = [] →
      exec m (.Pop a) input = .error .stackUnderflow ∧
      exec m .Ret input = .ok ⟨false, m, input, []⟩) ∧
    (∀ t rest, m.stack = t :: rest →
      exec m (.Pop a) input ≠ .error .stackUnderflow ∧
      exec m .Ret input =
        .ok ⟨true, { m with stack := rest, ip := t }, input, []⟩) := by
  constructor
  · intro hs
    exact ⟨by simp [exec, hs], by simp [exec, hs]⟩
  · intro t rest hs
    constructor
    · simp only [exec, hs]
      split
      · rename_i e he
        unfold Machine.set_register at he
        split at he
        · simp at he
        · simp only [Except.error.injEq] at he
          subst he
          simp
      · simp
    · simp [exec, hs]

/-- Witness for C4 at concrete machines with stacks `[]` and `[7]`. -/
theorem C4_witness :
    exec ⟨[], [0, 0, 0, 0, 0, 0, 0, 0], [], 0⟩ (.Pop 32768) [] =
      .error .stackUnderflow ∧
    exec ⟨[], [0, 0, 0, 0, 0, 0, 0, 0], [], 0⟩ .Ret [] =
      .ok ⟨false, ⟨[], [0, 0, 0, 0, 0, 0, 0, 0], [], 0⟩, [], []⟩ ∧
    exec ⟨[], [0, 0, 0, 0, 0, 0, 0, 0], [7], 0⟩ (.Pop 32768) [] ≠
      .error .stackUnderflow ∧
    exec ⟨[], [0, 0, 0, 0, 0, 0, 0, 0], [7], 0⟩ .Ret [] =
      .ok ⟨true, ⟨[], [0, 0, 0, 0, 0, 0, 0, 0], [], 7⟩, [], []⟩ := by
  refine ⟨((C4_pop_ret_empty_stack _ 32768 []).1 rfl).1,
    ((C4_pop_ret_empty_stack _ 32768 []).1 rfl).2,
    ((C4_pop_ret_empty_stack _ 32768 []).2 7 [] rfl).1, ?_⟩
  exact ((C4_pop_ret_empty_stack ⟨[], [0, 0, 0, 0, 0, 0, 0, 0], [7], 0⟩
    32768 []).2 7 [] rfl).2

/-- C8: executing `Call` pushes the address of the instruction after the
call (`ip + 2`) and jumps to the resolved target `t`; a `Ret` executed
there restores `ip` to exactly that pushed address, with the stack back to
its pre-`Call` contents. -/
theorem C8_call_then_ret (m : Machine) (input : List Nat) (a t : Nat)
    (hlen : m.memory.length ≤ 65535)
    (hc : m.memory[m.ip]? = some 17)
    (ha : m.memory[m.ip + 1]? = some a)
    (hv : m.value a = .ok t)
    (hr : m.memory[t]? = some 18) :
    m.tick input =
      .ok ⟨true, { m with stack := (m.ip + 2) :: m.stack, ip := t }, input, []⟩ ∧
    Machine.tick { m with stack := (m.ip + 2) :: m.stack, ip := t } input =
      .ok ⟨true, { m with ip := m.ip + 2 }, input, []⟩ := by
  have h1lt : m.ip + 1 < m.memory.length := (List.getElem?_eq_some_iff.mp ha).1
  have htlt : t < m.memory.length := (List.getElem?_eq_some_iff.mp hr).1
  have hmod1 : (m.ip + 1) % 65536 = m.ip + 1 := by omega
  have hmod2 : (m.ip + 1 + 1) % 65536 = m.ip + 2 := by omega
  have hmod3 : (t + 1) % 65536 = t + 1 := by omega
  constructor
  · have hn1 : m.next = .ok (17, { m with ip := m.ip + 1 }) := by
      simp only [Machine.next, hc, hmod1]
    have hn2 : Machine.next { m with ip := m.ip + 1 } =
        .ok (a, { m with ip := m.ip + 2 }) := by
      simp only [Machine.next, ha, hmod2]
    have hdec : m.decode = .ok (.Call a, { m with ip := m.ip + 2 }) := by
      unfold Machine.decode
      simp only [hn1, decodeOp, hn2]
    unfold Machine.tick
    simp only [hdec, exec]
    have hvv : Machine.value
        { m with stack := (m.ip + 2) :: m.stack, ip := m.ip + 2 } a = .ok t :=
      (value_only_registers _ m rfl a).trans hv
    simp only [hvv]
  · have hn1 : Machine.next { m with stack := (m.ip + 2) :: m.stack, ip := t } =
        .ok (18, { m with stack := (m.ip + 2) :: m.stack, ip := t + 1 }) := by
      simp only [Machine.next, hr, hmod3]
    have hdec : Machine.decode { m with stack := (m.ip + 2) :: m.stack, ip := t } =
        .ok (.Ret, { m with stack := (m.ip + 2) :: m.stack, ip := t + 1 }) := by
      unfold Machine.decode
      simp only [hn1, decodeOp]
    unfold Machine.tick
    simp only [hdec, exec]

/-- Witness for C8: `Call 5` at address 0 with a `Ret` at address 5. -/
theorem C8_witness :
    Machine.tick ⟨[17, 5, 0, 0, 0, 18], [], [], 0⟩ [] =
      .ok ⟨true, ⟨[17, 5, 0, 0, 0, 18], [], [2], 5⟩, [], []⟩ ∧
    Machine.tick ⟨[17, 5, 0, 0, 0, 18], [], [2], 5⟩ [] =
      .ok ⟨true, ⟨[17, 5, 0, 0, 0, 18], [], [], 2⟩, [], []⟩ :=
  C8_call_then_ret ⟨[17, 5, 0, 0, 0, 18], [], [], 0⟩ [] 5 5
    (by decide) (by decide) (by decide) (by decide) (by decide)

/-- The fresh machine's memory has 32768 words. -/
theorem new_memory_length : Machine.new.memory.length = 32768 := by
  rw [show Machine.new.memory = List.replicate 32768 0 from rfl,
    List.length_replicate]

/-- Claim C3 as stated: in every state reachable from a freshly
constructed, loaded machine, resolving any raw operand in 0–32775 yields a
value in 0–32767. -/
def ResolutionAlwaysData : Prop :=
  ∀ (buf : List Nat) (m0 : Machine) (n : Nat) (m : Machine) (v x : Nat),
    (∀ b ∈ buf, b < 256) → Machine.new.load buf = .ok (m0, n) →
    Reach m0 m → v ≤ 32775 → m.value v = .ok x → x ≤ 32767

/-- C3 is false on the code: load the 8-byte image
`15 0 | 0 128 | 3 0 | 64 156`, i.e. `Rmem reg0 3` with the word 40000 at
address 3.  One tick executes `Rmem`, copying the raw memory word 40000
(≥ 32768) into register 0, after which resolving the register operand
32768 yields 40000 > 32767. -/
theorem C3_counterexample : ¬ ResolutionAlwaysData := by
  intro h
  obtain ⟨mem', hload, hlen, hwrites, hrest⟩ :=
    load_spec Machine.new [15, 0, 0, 128, 3, 0, 64, 156] (by norm_num)
      (by norm_num) new_memory_length
  have hload' : Machine.new.load [15, 0, 0, 128, 3, 0, 64, 156] =
      .ok (⟨mem', List.replicate 8 0, [], 0⟩, 8) := by
    rw [hload]
    rfl
  have h0 : mem'[0]? = some 15 := by simpa using hwrites 0 (by norm_num)
  have h1 : mem'[1]? = some 32768 := by simpa using hwrites 1 (by norm_num)
  have h2 : mem'[2]? = some 3 := by simpa using hwrites 2 (by norm_num)
  have h3 : mem'[3]? = some 40000 := by simpa using hwrites 3 (by norm_num)
  have hn1 : Machine.next ⟨mem', List.replicate 8 0, [], 0⟩ =
      .ok (15, ⟨mem', List.replicate 8 0, [], 1⟩) := by
    simp only [Machine.next, h0]
  have hn2 : Machine.next ⟨mem', List.replicate 8 0, [], 1⟩ =
      .ok (32768, ⟨mem', List.replicate 8 0, [], 2⟩) := by
    simp only [Machine.next, h1]
  have hn3 : Machine.next ⟨mem', List.replicate 8 0, [], 2⟩ =
      .ok (3, ⟨mem', List.replicate 8 0, [], 3⟩) := by
    simp only [Machine.next, h2]
  have hdec : Machine.decode ⟨mem', List.replicate 8 0, [], 0⟩ =
      .ok (.Rmem 32768 3, ⟨mem', List.replicate 8 0, [], 3⟩) := by
    unfold Machine.decode
    simp only [hn1, decodeOp, Machine.next2, hn2, hn3]
  have hset : Machine.set_register ⟨mem', List.replicate 8 0, [], 3⟩
      32768 40000 = .ok ⟨mem', (List.replicate 8 0).set 0 40000, [], 3⟩ := by
    simp [Machine.set_register]
  have htick : Machine.tick ⟨mem', List.replicate 8 0, [], 0⟩ [] =
      .ok ⟨true, ⟨mem', (List.replicate 8 0).set 0 40000, [], 3⟩, [], []⟩ := by
    unfold Machine.tick
    simp only [hdec, exec]
    simp only [Machine.value, show ((3:Nat) ≤ 32767) = True by simp, if_true]
    simp only [h3, hset]
  have hreach : Reach ⟨mem', List.replicate 8 0, [], 0⟩
      ⟨mem', (List.replicate 8 0).set 0 40000, [], 3⟩ :=
    Reach.step (Reach.refl _) (by simp) htick
  have hval : Machine.value ⟨mem', (List.replicate 8 0).set 0 40000, [], 3⟩
      32768 = .ok 40000 := by
    have hg : ((List.replicate 8 0).set 0 40000)[(0:Nat)]? = some 40000 :=
      List.getElem?_set_eq_of_lt _ (by simp)
    simp [Machine.value, Machine.get_register, hg]
  have := h [15, 0, 0, 128, 3, 0, 64, 156] ⟨mem', List.replicate 8 0, [], 0⟩ 8
    ⟨mem', (List.replicate 8 0).set 0 40000, [], 3⟩ 32768 40000
    (by decide) hload' hreach (by norm_num) hval
  omega

/-- C3 amended: in every reachable state of a freshly constructed, loaded
machine, resolution of a raw operand yields a 16-bit value (at most
65535), and literals in 0–32767 still resolve to themselves; but a
register may hold a value above 32767 (see the counterexample, where
`Rmem` copies a raw memory word into a register), so 65535 — not 32767 —
is the tight bound for register resolution. -/
theorem C3_amended_resolution_u16 (buf : List Nat) (m0 : Machine) (n : Nat)
    (m : Machine) (hbuf : ∀ b ∈ buf, b < 256)
    (hload : Machine.new.load buf = .ok (m0, n)) (hreach : Reach m0 m) :
    (∀ v x, m.value v = .ok x → x ≤ 65535) ∧
    (∀ v, v ≤ 32767 → m.value v = .ok v) := by
  have hwf : WF m := reach_wf (load_wf wf_new hbuf hload) hreach
  constructor
  · intro v x hvx
    have := value_lt hwf hvx
    omega
  · intro v hv
    simp [Machine.value, hv]

/-- Witness for C3 (amended) at the two-byte image `[0, 0]` and the
freshly loaded state itself. -/
theorem C3_witness :
    ∃ m0 : Machine, Machine.new.load [0, 0] = .ok (m0, 2) ∧
      m0.value 5 = .ok 5 := by
  obtain ⟨mem', hload, -, -, -⟩ :=
    load_spec Machine.new [0, 0] (by norm_num) (by norm_num) new_memory_length
  have hload' : Machine.new.load [0, 0] =
      .ok ({ Machine.new with memory := mem' }, 2) := by
    rw [hload]
    rfl
  refine ⟨{ Machine.new with memory := mem' }, hload', ?_⟩
  exact (C3_amended_resolution_u16 [0, 0] _ 2 _ (by decide) hload'
    (Reach.refl _)).2 5 (by norm_num)

/-- Claim C7 as stated, for every byte image: loading succeeds and writes
the byte pairs as little-endian words from address 0, leaving the rest of
memory zero (an odd trailing byte is ignored). -/
def LoadHandlesEveryImage : Prop :=
  ∀ buf : List Nat, (∀ b ∈ buf, b < 256) →
    ∃ (m : Machine) (n : Nat), Machine.new.load buf = .ok (m, n) ∧
      (∀ j, j < buf.length / 2 →
        m.memory[j]? =
          some ((buf.getD (2 * j) 0) ||| ((buf.getD (2 * j + 1) 0) <<< 8))) ∧
      (∀ j, buf.length / 2 ≤ j → j < 32768 → m.memory[j]? = some 0)

/-- C7 is false for the empty image: loading `[]` is a fatal fault (C10),
not a successful no-op write of zero words. -/
theorem C7_counterexample : ¬ LoadHandlesEveryImage := by
  intro h
  obtain ⟨m, n, hload, -, -⟩ := h [] (by simp)
  rw [load_nil_fault] at hload
  exact absurd hload (by simp)

/-- C7 amended: for every image of at least 1 and at most 65537 bytes,
loading interprets consecutive byte pairs as little-endian words
(`byte[2i] ||| byte[2i+1] <<< 8` at word `i`) written in order from
address 0, an odd trailing byte is ignored, and the rest of memory stays
zero; the returned byte count is the image length.  (The empty image
faults — the counterexample — and an image of more than 65537 bytes
overruns the 32768-word memory.) -/
theorem C7_amended_load_nonempty (buf : List Nat) (h1 : 1 ≤ buf.length)
    (h2 : buf.length ≤ 65537) :
    ∃ mem', Machine.new.load buf =
        .ok ({ Machine.new with memory := mem' }, buf.length) ∧
      mem'.length = 32768 ∧
      (∀ j, j < buf.length / 2 →
        mem'[j]? =
          some ((buf.getD (2 * j) 0) ||| ((buf.getD (2 * j + 1) 0) <<< 8))) ∧
      (∀ j, buf.length / 2 ≤ j → j < 32768 → mem'[j]? = some 0) := by
  obtain ⟨mem', hload, hlen, hw, hr⟩ :=
    load_spec Machine.new buf h1 h2 new_memory_length
  refine ⟨mem', hload, hlen, hw, fun j hj hj2 => ?_⟩
  rw [hr j hj, show Machine.new.memory = List.replicate 32768 0 from rfl,
    List.getElem?_replicate, if_pos hj2]

/-- Witness for C7 (amended) at the 3-byte image `[72, 0, 105]`: word 0 is
72, word 1 stays 0, and the odd trailing byte 105 is ignored. -/
theorem C7_witness :
    ∃ mem', Machine.new.load [72, 0, 105] =
        .ok ({ Machine.new with memory := mem' }, 3) ∧
      mem'[0]? = some 72 ∧ mem'[1]? = some 0 := by
  obtain ⟨mem', hload, -, hw, hr⟩ :=
    C7_amended_load_nonempty [72, 0, 105] (by norm_num) (by norm_num)
  rw [show ([72, 0, 105] : List Nat).length = 3 from rfl] at hload
  refine ⟨mem', hload, ?_, ?_⟩
  · simpa using hw 0 (by norm_num)
  · simpa using hr 1 (by norm_num) (by norm_num)

end Synacor
